import Mathlib

/-!
Verification of the model-composition layer of a PyTorch text-classification
repository (`network/model.py`).  Tensors are shallowly embedded as nested
lists of integer scalars (exact stand-ins for the library's real scalars:
every operation this composition layer performs — addition, multiplication,
maximum, and the abstract activations — stays within them); batched tensor
operations become per-example list maps;
fallible tensor-library operations (embedding lookup, convolution on a too
short input, reduction over an empty axis, linear layer on a vector of the
wrong width) return `Option`.  The layer primitives (`LSTMLayer`, `CNNLayer`,
`AttnLayer`, `CNNBlock`) live in `network/layer.py`, which is not part of the
sources at hand; they are modelled from the specification where marked.
-/

namespace TextClf

/-- A dense vector: one scalar per feature. -/
abbrev Vec : Type := List ℤ

/-- A matrix, stored row-major: a list of rows. -/
abbrev Mat : Type := List Vec

/-- Dot product of two vectors (zips and truncates like the numeric library
only when shapes already agree; all uses are shape-checked). -/
def dot (a b : Vec) : ℤ := (List.zipWith (fun x y => x * y) a b).sum

/-- Pointwise rectified linear unit. -/
def relu (q : ℤ) : ℤ := max q 0

/-- ReLU applied to every entry of a matrix. -/
def reluMat (m : Mat) : Mat := m.map (fun r => r.map relu)

/-- Pointwise sum of two vectors. -/
def addVec (a b : Vec) : Vec := List.zipWith (fun x y => x + y) a b

/-- Pointwise sum of two matrices (residual connection). -/
def addMat (a b : Mat) : Mat := List.zipWith addVec a b

/-- Pointwise maximum of two vectors. -/
def maxVec (a b : Vec) : Vec := List.zipWith max a b

/-- The zero vector of a given width. -/
def zeroVec (d : ℕ) : Vec := List.replicate d 0

/-- Sequences a list of optional values: `some` of the list of contents when
every element is defined, `none` as soon as one element is undefined.  This is
how a per-example failure inside a batched tensor operation aborts the whole
batch. -/
def seqOpt {α : Type} : List (Option α) → Option (List α)
  | [] => some []
  | o :: rest => o.bind (fun a => (seqOpt rest).map (fun l => a :: l))

/-- Indexing with the tensor library's semantics: a nonnegative index selects
from the front, a negative index `i` with `-n ≤ i` wraps around and selects
position `n + i`, and anything out of `[-n, n)` is an error (`none`). -/
def torchIndex {α : Type} (l : List α) (i : ℤ) : Option α :=
  if 0 ≤ i then l[i.toNat]?
  else if -(l.length : ℤ) ≤ i then l[(i + l.length).toNat]? else none

/-- Max-reduction over the position axis of a `(positions, features)` matrix,
`none` on an empty axis (the tensor library rejects a max over a size-zero
dimension). -/
def maxPool : Mat → Option Vec
  | [] => none
  | v :: vs => some (vs.foldl maxVec v)

/-- All windows of `n` consecutive elements, in order. -/
def slide {α : Type} (n : ℕ) : List α → List (List α)
  | [] => []
  | a :: l => if n ≤ l.length + 1 then (a :: l).take n :: slide n l else []

/-- `cal_seq_len` of `network/model.py`: the true length of one padded row is
the padded length minus the number of positions holding the padding id. -/
def cal_seq_len (x : List ℕ) (max_seq_len : ℕ) (padding_id : ℕ) : ℤ :=
  (max_seq_len : ℤ) - x.count padding_id

/-- Embedding lookup for one row of token ids, `none` on an id outside the
table (the embedding layer rejects out-of-range ids). -/
def embedRow (table : Mat) (row : List ℕ) : Option Mat :=
  seqOpt (row.map fun t => table[t]?)

/-- A fully connected layer: `weight` is `(outDim, inDim)`, `bias` has length
`outDim`, and `inDim` records the declared input width.  Application rejects a
vector of the wrong width, as the numeric library does. -/
structure Linear where
  weight : Mat
  bias : Vec
  inDim : ℕ

/-- Applies a linear layer to one vector: affine map, or `none` on a width
mismatch. -/
def Linear.apply (l : Linear) (v : Vec) : Option Vec :=
  if v.length = l.inDim then
    some (List.zipWith (fun row b => dot row v + b) l.weight l.bias)
  else none

/-- Well-formedness of a linear layer with the given dimensions. -/
def Linear.Wf (l : Linear) (din dout : ℕ) : Prop :=
  l.inDim = din ∧ l.weight.length = dout ∧ l.bias.length = dout ∧
    ∀ r ∈ l.weight, r.length = din

/-- Modelled from the spec: one direction of the recurrent encoder of
`network/layer.py` (`LSTMLayer`), absent from the sources at hand.  The spec
describes it as contextualizing embeddings via sequential state, so it is a
state-transition `step` folded left-to-right from an initial state `h0`,
emitting the state after every position. -/
structure RNNCell where
  step : Vec → Vec → Vec
  h0 : Vec

/-- The states emitted by running a cell from state `h` over a sequence. -/
def RNNCell.scanFrom (c : RNNCell) (h : Vec) : Mat → Mat
  | [] => []
  | x :: xs => c.step h x :: c.scanFrom (c.step h x) xs

/-- Runs a cell over a sequence from its initial state: one hidden state per
input position. -/
def RNNCell.scan (c : RNNCell) (m : Mat) : Mat := c.scanFrom c.h0 m

/-- A cell whose every emitted state has width `d`. -/
def RNNCell.DimOk (c : RNNCell) (d : ℕ) : Prop := ∀ h x, (c.step h x).length = d

/-- Modelled from the spec: the unidirectional, possibly multi-layer
`LSTMLayer` of `network/layer.py` (absent from the sources at hand), with
dropout in inference mode (identity).  Layers are stacked: each layer scans
the previous layer's output sequence. -/
structure LSTMLayer where
  cells : List RNNCell

/-- Runs the stacked recurrent layers over an embedded sequence. -/
def LSTMLayer.run (l : LSTMLayer) (x : Mat) : Mat :=
  l.cells.foldl (fun m c => c.scan m) x

/-- Modelled from the spec: the bidirectional variant of `LSTMLayer`
(`bi=True` in `network/layer.py`, absent from the sources at hand): a forward
scan and a backward scan over the reversed sequence, concatenated per
position. -/
structure BiLSTM where
  fwd : RNNCell
  bwd : RNNCell

/-- Runs the bidirectional encoder: per-position concatenation of the forward
states and the (re-reversed) backward states. -/
def BiLSTM.run (b : BiLSTM) (x : Mat) : Mat :=
  List.zipWith (fun u v => u ++ v) (b.fwd.scan x) ((b.bwd.scan x.reverse).reverse)

/-- Modelled from the spec: the 1-d convolution `CNNLayer` of
`network/layer.py` (absent from the sources at hand).  `weight` has one row
per output channel, each row holding `window * inDim` coefficients matched
against the flattened window; the input is padded on both sides with
`padding` zero vectors; application fails when the padded length is shorter
than the window or the input width disagrees with `inDim`. -/
structure CNNLayer where
  window : ℕ
  padding : ℕ
  inDim : ℕ
  weight : Mat
  bias : Vec

/-- The output vector a convolution produces from one window of input rows. -/
def CNNLayer.applyWindow (c : CNNLayer) (w : Mat) : Vec :=
  List.zipWith (fun row b => dot row w.flatten + b) c.weight c.bias

/-- The input padded on both sides with `padding` zero vectors. -/
def CNNLayer.padded (c : CNNLayer) (x : Mat) : Mat :=
  List.replicate c.padding (zeroVec c.inDim) ++ x ++
    List.replicate c.padding (zeroVec c.inDim)

/-- Applies the convolution over the position axis. -/
def CNNLayer.apply (c : CNNLayer) (x : Mat) : Option Mat :=
  if x.all (fun r => r.length = c.inDim) ∧ c.window ≤ (c.padded x).length then
    some ((slide c.window (c.padded x)).map c.applyWindow)
  else none

/-- Modelled from the spec: the attention pooling `AttnLayer` of
`network/layer.py` (absent from the sources at hand): a learned weighted
summary of a sequence of vectors — each position is scaled by a learned
scalar weight (the score abstracts the learned scoring and its softmax
normalization) and the scaled vectors are summed; an empty sequence is
rejected. -/
structure AttnLayer where
  score : Vec → ℤ

/-- Applies attention pooling to a `(positions, features)` matrix. -/
def AttnLayer.apply (a : AttnLayer) : Mat → Option Vec
  | [] => none
  | v :: vs => some (vs.foldl (fun acc w => addVec acc ((w.map (fun q => a.score w * q)))) (v.map (fun q => a.score v * q)))

end TextClf

namespace TextClf

/-- `LSTMModel` of `network/model.py`: embedding table, stacked unidirectional
recurrent encoder, linear head, and the configured padding id. -/
structure LSTMModel where
  embedding : Mat
  lstm : LSTMLayer
  linear : Linear
  padding_id : ℕ

/-- Lines 32-40 of `LSTMModel.forward`: reads the batch shape (the input is a
rectangular tensor, so ragged input is rejected), computes per-row lengths
with `cal_seq_len`, embeds, runs the recurrent encoder over the full padded
rows, and gathers, per row, the hidden state at index `length - 1` with the
tensor library's indexing semantics. -/
def LSTMModel.gathered (m : LSTMModel) (x : List (List ℕ)) : Option Mat :=
  if x.all (fun r => r.length = x.head?.elim 0 List.length) then
    (seqOpt (x.map (embedRow m.embedding))).bind (fun emb =>
      seqOpt (List.zipWith (fun h l => torchIndex h (l - 1))
        (emb.map m.lstm.run)
        (x.map (fun r =>
          cal_seq_len r (x.head?.elim 0 List.length) m.padding_id))))
  else none

/-- `LSTMModel.forward`: the gathered per-row states followed by the linear
head. -/
def LSTMModel.forward (m : LSTMModel) (x : List (List ℕ)) : Option Mat :=
  (m.gathered x).bind (fun g => seqOpt (g.map m.linear.apply))

/-- `RCNNModel` of `network/model.py`.  `act` is the numeric library's `tanh`
primitive, kept abstract (its pointwise application is all the composition
layer uses). -/
structure RCNNModel where
  embedding : Mat
  bilstm : BiLSTM
  encoder : Linear
  linear : Linear
  act : ℤ → ℤ

/-- One example of `RCNNModel.forward`: embed, bidirectional context,
per-position concatenation, per-position affine map plus `tanh`, max-pool over
positions, linear head. -/
def RCNNModel.forwardRow (m : RCNNModel) (row : List ℕ) : Option Vec := do
  let word ← embedRow m.embedding row
  let context := m.bilstm.run word
  let cat := List.zipWith (fun u v => u ++ v) word context
  let feat ← seqOpt (cat.map (fun v => (m.encoder.apply v).map (List.map m.act)))
  let pooled ← maxPool feat
  m.linear.apply pooled

/-- `RCNNModel.forward` over a batch: examples are processed independently
along the batch axis. -/
def RCNNModel.forward (m : RCNNModel) (x : List (List ℕ)) : Option Mat :=
  seqOpt (x.map m.forwardRow)

/-- `BiLSTMAttnModel` of `network/model.py`. -/
structure BiLSTMAttnModel where
  embedding : Mat
  bilstm : BiLSTM
  attn : AttnLayer
  linear : Linear
  padding_id : ℕ

/-- One example of `BiLSTMAttnModel.forward`: embed, bidirectional encoding,
attention pooling, linear head. -/
def BiLSTMAttnModel.forwardRow (m : BiLSTMAttnModel) (row : List ℕ) : Option Vec := do
  let e ← embedRow m.embedding row
  let a ← m.attn.apply (m.bilstm.run e)
  m.linear.apply a

/-- `BiLSTMAttnModel.forward` over a batch. -/
def BiLSTMAttnModel.forward (m : BiLSTMAttnModel) (x : List (List ℕ)) : Option Mat :=
  seqOpt (x.map m.forwardRow)

/-- `CNNModel` of `network/model.py`. -/
structure CNNModel where
  embedding : Mat
  conv : CNNLayer
  linear : Linear

/-- One example of `CNNModel.forward`: embed, convolve, max-pool over
positions, ReLU, linear head. -/
def CNNModel.forwardRow (m : CNNModel) (row : List ℕ) : Option Vec := do
  let e ← embedRow m.embedding row
  let c ← m.conv.apply e
  let p ← maxPool c
  m.linear.apply (p.map relu)

/-- `CNNModel.forward` over a batch. -/
def CNNModel.forward (m : CNNModel) (x : List (List ℕ)) : Option Mat :=
  seqOpt (x.map m.forwardRow)

/-- `TextCNNModel` of `network/model.py`: three unpadded convolution branches
with windows 2, 3, 4. -/
structure TextCNNModel where
  embedding : Mat
  conv1 : CNNLayer
  conv2 : CNNLayer
  conv3 : CNNLayer
  linear : Linear

/-- One example of `TextCNNModel.forward`: embed; three branches of
convolution, ReLU and max-pool; concatenate the three pooled vectors; linear
head. -/
def TextCNNModel.forwardRow (m : TextCNNModel) (row : List ℕ) : Option Vec := do
  let e ← embedRow m.embedding row
  let f1 ← (m.conv1.apply e).map reluMat
  let f2 ← (m.conv2.apply e).map reluMat
  let f3 ← (m.conv3.apply e).map reluMat
  let p1 ← maxPool f1
  let p2 ← maxPool f2
  let p3 ← maxPool f3
  m.linear.apply (p1 ++ p2 ++ p3)

/-- `TextCNNModel.forward` over a batch. -/
def TextCNNModel.forward (m : TextCNNModel) (x : List (List ℕ)) : Option Mat :=
  seqOpt (x.map m.forwardRow)

/-- The dimensions `TextCNNModel.__init__` fixes: windows 2, 3, 4, all with
zero padding. -/
def TextCNNModel.Init (m : TextCNNModel) : Prop :=
  m.conv1.window = 2 ∧ m.conv1.padding = 0 ∧
  m.conv2.window = 3 ∧ m.conv2.padding = 0 ∧
  m.conv3.window = 4 ∧ m.conv3.padding = 0

/-- Stride-2 downsampling over the position axis: adjacent positions are
merged by pointwise max, a trailing odd position is kept. -/
def pool2 : Mat → Mat
  | [] => []
  | [a] => [a]
  | a :: b :: rest => maxVec a b :: pool2 rest

/-- Modelled from the spec: one pyramid block of `network/layer.py`
(`CNNBlock`, absent from the sources at hand): downsampling that halves the
sequence length followed by a convolution. -/
structure CNNBlock where
  conv : CNNLayer

/-- Applies one pyramid block. -/
def CNNBlock.apply (b : CNNBlock) (x : Mat) : Option Mat :=
  b.conv.apply (pool2 x)

/-- Runs a stack of pyramid blocks in order; the empty stack is the
identity. -/
def runBlocks : List CNNBlock → Mat → Option Mat
  | [], x => some x
  | b :: rest, x => (b.apply x).bind (runBlocks rest)

/-- `DPCNNModel` of `network/model.py`. -/
structure DPCNNModel where
  embedding : Mat
  region_embedding : CNNLayer
  conv1 : CNNLayer
  conv2 : CNNLayer
  blocks : List CNNBlock
  linear : Linear

/-- One example of `DPCNNModel.forward`: embed; region embedding; ReLU and
convolution twice; residual sum with the region embedding; the pyramid block
stack; max-pool over positions; linear head. -/
def DPCNNModel.forwardRow (m : DPCNNModel) (row : List ℕ) : Option Vec := do
  let e ← embedRow m.embedding row
  let emb ← m.region_embedding.apply e
  let a ← m.conv1.apply (reluMat emb)
  let b ← m.conv2.apply (reluMat a)
  let t ← runBlocks m.blocks (addMat b emb)
  let p ← maxPool t
  m.linear.apply p

/-- `DPCNNModel.forward` over a batch. -/
def DPCNNModel.forward (m : DPCNNModel) (x : List (List ℕ)) : Option Mat :=
  seqOpt (x.map m.forwardRow)

/-- `CNNAttnModel` of `network/model.py`. -/
structure CNNAttnModel where
  embedding : Mat
  cnn : CNNLayer
  attn : AttnLayer
  linear : Linear

/-- One example of `CNNAttnModel.forward`: embed, convolve, ReLU, attention
pooling, linear head. -/
def CNNAttnModel.forwardRow (m : CNNAttnModel) (row : List ℕ) : Option Vec := do
  let e ← embedRow m.embedding row
  let c ← m.cnn.apply e
  let a ← m.attn.apply (reluMat c)
  m.linear.apply a

/-- `CNNAttnModel.forward` over a batch. -/
def CNNAttnModel.forward (m : CNNAttnModel) (x : List (List ℕ)) : Option Mat :=
  seqOpt (x.map m.forwardRow)

/-- The family of models exported by `network/model.py`. -/
inductive Model where
  | lstm : LSTMModel → Model
  | rcnn : RCNNModel → Model
  | bilstmAttn : BiLSTMAttnModel → Model
  | cnn : CNNModel → Model
  | textcnn : TextCNNModel → Model
  | dpcnn : DPCNNModel → Model
  | cnnAttn : CNNAttnModel → Model

/-- The one operation every model exposes: `forward(batch) → scores`. -/
def Model.forward : Model → List (List ℕ) → Option Mat
  | .lstm m, x => m.forward x
  | .rcnn m, x => m.forward x
  | .bilstmAttn m, x => m.forward x
  | .cnn m, x => m.forward x
  | .textcnn m, x => m.forward x
  | .dpcnn m, x => m.forward x
  | .cnnAttn m, x => m.forward x

/-- The linear classification head of each model. -/
def Model.head : Model → Linear
  | .lstm m => m.linear
  | .rcnn m => m.linear
  | .bilstmAttn m => m.linear
  | .cnn m => m.linear
  | .textcnn m => m.linear
  | .dpcnn m => m.linear
  | .cnnAttn m => m.linear

/-- A model whose head has `tag_dim` output features. -/
def Model.Wf (m : Model) (tagDim : ℕ) : Prop :=
  m.head.weight.length = tagDim ∧ m.head.bias.length = tagDim

/-- A forward call with its state effect made explicit: every `forward` body
in `network/model.py` assigns only local names (never an attribute of
`self`), so the model after the call is the model before it. -/
def Model.forwardSt (m : Model) (x : List (List ℕ)) : Option Mat × Model :=
  (m.forward x, m)

end TextClf

namespace TextClf

theorem seqOpt_length {α : Type} {l : List (Option α)} {r : List α}
    (h : seqOpt l = some r) : r.length = l.length := by
  induction l generalizing r with
  | nil => simp [seqOpt] at h; subst h; rfl
  | cons o rest ih =>
    cases o with
    | none => simp [seqOpt] at h
    | some a =>
      cases hrest : seqOpt rest with
      | none => simp [seqOpt, hrest] at h
      | some tl =>
        simp [seqOpt, hrest] at h
        subst h
        simp [ih hrest]

theorem seqOpt_getElem {α : Type} {l : List (Option α)} {r : List α}
    (h : seqOpt l = some r) (i : ℕ) : l[i]? = (r[i]?).map some := by
  induction l generalizing r i with
  | nil => simp [seqOpt] at h; subst h; simp
  | cons o rest ih =>
    cases o with
    | none => simp [seqOpt] at h
    | some a =>
      cases hrest : seqOpt rest with
      | none => simp [seqOpt, hrest] at h
      | some tl =>
        simp [seqOpt, hrest] at h
        subst h
        cases i with
        | zero => simp
        | succ j => simpa using ih hrest j

theorem seqOpt_mem {α : Type} {l : List (Option α)} {r : List α}
    (h : seqOpt l = some r) {b : α} (hb : b ∈ r) : some b ∈ l := by
  induction l generalizing r with
  | nil => simp [seqOpt] at h; subst h; simp at hb
  | cons o rest ih =>
    cases o with
    | none => simp [seqOpt] at h
    | some a =>
      cases hrest : seqOpt rest with
      | none => simp [seqOpt, hrest] at h
      | some tl =>
        simp [seqOpt, hrest] at h
        subst h
        rcases List.mem_cons.1 hb with hba | hbtl
        · subst hba; exact List.mem_cons_self _ _
        · exact List.mem_cons_of_mem _ (ih hrest hbtl)

theorem seqOpt_eq_none {α : Type} {l : List (Option α)} (h : none ∈ l) :
    seqOpt l = none := by
  induction l with
  | nil => simp at h
  | cons o rest ih =>
    rcases List.mem_cons.1 h with ho | hrest
    · rw [← ho]; simp [seqOpt]
    · cases o <;> simp [seqOpt, ih hrest]

theorem seqOpt_map_eq_some {α β : Type} {l : List α} {f : α → Option β}
    {g : α → β} (h : ∀ a ∈ l, f a = some (g a)) :
    seqOpt (l.map f) = some (l.map g) := by
  induction l with
  | nil => rfl
  | cons a rest ih =>
    have ha := h a (List.mem_cons_self _ _)
    have hrest := ih (fun b hb => h b (List.mem_cons_of_mem _ hb))
    simp [seqOpt, ha, hrest]

theorem seqOpt_take {α : Type} {l : List (Option α)} {r : List α}
    (h : seqOpt l = some r) (n : ℕ) : seqOpt (l.take n) = some (r.take n) := by
  induction l generalizing r n with
  | nil => simp [seqOpt] at h; subst h; simp [seqOpt]
  | cons o rest ih =>
    cases o with
    | none => simp [seqOpt] at h
    | some a =>
      cases hrest : seqOpt rest with
      | none => simp [seqOpt, hrest] at h
      | some tl =>
        simp [seqOpt, hrest] at h
        subst h
        cases n with
        | zero => simp [seqOpt]
        | succ k => simp [seqOpt, ih hrest k]

theorem mem_zipWith {α β γ : Type} {f : α → β → γ} {a : List α} {b : List β}
    {c : γ} (h : c ∈ List.zipWith f a b) : ∃ x y, x ∈ a ∧ y ∈ b ∧ c = f x y := by
  induction a generalizing b with
  | nil => simp at h
  | cons x xs ih =>
    cases b with
    | nil => simp at h
    | cons y ys =>
      rcases List.mem_cons.1 h with hc | hc
      · exact ⟨x, y, List.mem_cons_self _ _, List.mem_cons_self _ _, hc⟩
      · rcases ih hc with ⟨u, v, hu, hv, he⟩
        exact ⟨u, v, List.mem_cons_of_mem _ hu, List.mem_cons_of_mem _ hv, he⟩

end TextClf

namespace TextClf

theorem Linear.apply_length {l : Linear} {din dout : ℕ} (hwf : l.Wf din dout)
    {v w : Vec} (h : l.apply v = some w) : w.length = dout := by
  obtain ⟨-, hw, hb, -⟩ := hwf
  unfold Linear.apply at h
  split at h
  · cases h
    simp [List.length_zipWith, hw, hb]
  · cases h

theorem Linear.apply_defined {l : Linear} {din dout : ℕ} (hwf : l.Wf din dout)
    {v : Vec} (hv : v.length = din) : ∃ w, l.apply v = some w ∧ w.length = dout := by
  have happ : l.apply v =
      some (List.zipWith (fun row b => dot row v + b) l.weight l.bias) := by
    unfold Linear.apply
    rw [if_pos (hv.trans hwf.1.symm)]
  exact ⟨_, happ, by simp [List.length_zipWith, hwf.2.1, hwf.2.2.1]⟩

theorem Linear.apply_of_wrong_width {l : Linear} {v : Vec}
    (h : v.length ≠ l.inDim) : l.apply v = none := by
  unfold Linear.apply
  rw [if_neg h]

theorem embedRow_length {table : Mat} {row : List ℕ} {e : Mat}
    (h : embedRow table row = some e) : e.length = row.length := by
  have := seqOpt_length h
  simpa using this

theorem embedRow_isSome {table : Mat} {row : List ℕ}
    (h : ∀ t ∈ row, t < table.length) :
    ∃ e, embedRow table row = some e ∧ e.length = row.length ∧
      ∀ r ∈ e, r ∈ table := by
  induction row with
  | nil => exact ⟨[], rfl, rfl, by simp⟩
  | cons t rest ih =>
    obtain ⟨e, he, hlen, hmem⟩ := ih (fun u hu => h u (List.mem_cons_of_mem _ hu))
    have ht : t < table.length := h t (List.mem_cons_self _ _)
    obtain ⟨v, hv⟩ : ∃ v, table[t]? = some v := by
      simp [List.getElem?_eq_getElem ht]
    refine ⟨table[t] :: e, ?_, by simp [hlen], ?_⟩
    · unfold embedRow at he ⊢
      simp only [List.map_cons, seqOpt, he, hv]
      simp [List.getElem?_eq_getElem ht] at hv
      simp [hv]
    · intro r hr
      rcases List.mem_cons.1 hr with hr | hr
      · subst hr; exact List.getElem_mem _
      · exact hmem r hr

theorem embedRow_take {table : Mat} {row : List ℕ} {e : Mat}
    (h : embedRow table row = some e) (n : ℕ) :
    embedRow table (row.take n) = some (e.take n) := by
  unfold embedRow at h ⊢
  rw [List.map_take]
  exact seqOpt_take h n

theorem maxPool_isSome {m : Mat} (h : m ≠ []) : ∃ v, maxPool m = some v := by
  cases m with
  | nil => exact absurd rfl h
  | cons a rest => exact ⟨_, rfl⟩

theorem foldl_maxVec_length {d : ℕ} {acc : Vec} {rest : Mat}
    (hacc : acc.length = d) (hrest : ∀ r ∈ rest, r.length = d) :
    (rest.foldl maxVec acc).length = d := by
  induction rest generalizing acc with
  | nil => exact hacc
  | cons r rs ih =>
    refine ih ?_ (fun s hs => hrest s (List.mem_cons_of_mem _ hs))
    simp [maxVec, List.length_zipWith, hacc, hrest r (List.mem_cons_self _ _)]

theorem maxPool_length {m : Mat} {d : ℕ} {v : Vec}
    (hm : ∀ r ∈ m, r.length = d) (h : maxPool m = some v) : v.length = d := by
  cases m with
  | nil => cases h
  | cons a rest =>
    cases h
    exact foldl_maxVec_length (hm a (List.mem_cons_self _ _))
      (fun r hr => hm r (List.mem_cons_of_mem _ hr))

theorem scanFrom_length (c : RNNCell) (h : Vec) (m : Mat) :
    (c.scanFrom h m).length = m.length := by
  induction m generalizing h with
  | nil => rfl
  | cons x xs ih => simp [RNNCell.scanFrom, ih]

theorem scan_length (c : RNNCell) (m : Mat) : (c.scan m).length = m.length :=
  scanFrom_length c c.h0 m

theorem scanFrom_mem_length {c : RNNCell} {d : ℕ} (hc : c.DimOk d) (h : Vec)
    {m : Mat} {r : Vec} (hr : r ∈ c.scanFrom h m) : r.length = d := by
  induction m generalizing h with
  | nil => simp [RNNCell.scanFrom] at hr
  | cons x xs ih =>
    rcases List.mem_cons.1 hr with hr | hr
    · subst hr; exact hc h x
    · exact ih _ hr

theorem scan_mem_length {c : RNNCell} {d : ℕ} (hc : c.DimOk d) {m : Mat}
    {r : Vec} (hr : r ∈ c.scan m) : r.length = d :=
  scanFrom_mem_length hc c.h0 hr

theorem scanFrom_take (c : RNNCell) (h : Vec) (m : Mat) (n : ℕ) :
    c.scanFrom h (m.take n) = (c.scanFrom h m).take n := by
  induction m generalizing h n with
  | nil => simp [RNNCell.scanFrom]
  | cons x xs ih =>
    cases n with
    | zero => rfl
    | succ k => simp [RNNCell.scanFrom, ih]

theorem scan_take (c : RNNCell) (m : Mat) (n : ℕ) :
    c.scan (m.take n) = (c.scan m).take n :=
  scanFrom_take c c.h0 m n

theorem lstm_run_length (l : LSTMLayer) (x : Mat) : (l.run x).length = x.length := by
  unfold LSTMLayer.run
  induction l.cells generalizing x with
  | nil => rfl
  | cons c cs ih => simp [List.foldl_cons, ih, scan_length]

theorem run_take (l : LSTMLayer) (x : Mat) (n : ℕ) :
    l.run (x.take n) = (l.run x).take n := by
  unfold LSTMLayer.run
  induction l.cells generalizing x with
  | nil => rfl
  | cons c cs ih => simp [List.foldl_cons, scan_take, ih (c.scan x)]

theorem foldl_scan_mem_length {d : ℕ} :
    ∀ (cs : List RNNCell) (x : Mat), cs ≠ [] → (∀ c ∈ cs, c.DimOk d) →
      ∀ r ∈ cs.foldl (fun m c => c.scan m) x, r.length = d
  | [], _, hne, _, _, _ => absurd rfl hne
  | [c], x, _, hc, r, hr => by
    simp only [List.foldl_cons, List.foldl_nil] at hr
    exact scan_mem_length (hc c (List.mem_cons_self _ _)) hr
  | c :: c2 :: cs2, x, _, hc, r, hr => by
    simp only [List.foldl_cons] at hr
    exact foldl_scan_mem_length (c2 :: cs2) (c.scan x) (by simp)
      (fun u hu => hc u (List.mem_cons_of_mem _ hu)) r hr

theorem lstm_run_mem_length {l : LSTMLayer} {d : ℕ} (hne : l.cells ≠ [])
    (hc : ∀ c ∈ l.cells, c.DimOk d) {x : Mat} {r : Vec} (hr : r ∈ l.run x) :
    r.length = d :=
  foldl_scan_mem_length l.cells x hne hc r hr

end TextClf

namespace TextClf

theorem BiLSTM.run_length (b : BiLSTM) (x : Mat) : (b.run x).length = x.length := by
  simp [BiLSTM.run, List.length_zipWith, scan_length]

theorem BiLSTM.run_mem_length {b : BiLSTM} {d1 d2 : ℕ} (h1 : b.fwd.DimOk d1)
    (h2 : b.bwd.DimOk d2) {x : Mat} {r : Vec} (hr : r ∈ b.run x) :
    r.length = d1 + d2 := by
  obtain ⟨u, v, hu, hv, he⟩ := mem_zipWith hr
  subst he
  rw [List.length_append, scan_mem_length h1 hu,
    scan_mem_length h2 (List.mem_reverse.1 hv)]

theorem slide_eq_nil {α : Type} {n : ℕ} {l : List α} (h : l.length < n) :
    slide n l = [] := by
  cases l with
  | nil => rfl
  | cons a rest =>
    unfold slide
    rw [if_neg]
    simpa using h

theorem slide_length {α : Type} {n : ℕ} (hn : 1 ≤ n) {l : List α}
    (h : n ≤ l.length) : (slide n l).length = l.length + 1 - n := by
  induction l with
  | nil => simp at h; omega
  | cons a rest ih =>
    unfold slide
    rw [if_pos (by simpa using h)]
    by_cases hr : n ≤ rest.length
    · simp [List.length_cons, ih hr]; omega
    · have hnil : slide n rest = [] := slide_eq_nil (by omega)
      simp only [hnil, List.length_cons, List.length_nil]
      simp at h
      omega

theorem applyWindow_length (c : CNNLayer) (w : Mat) :
    (c.applyWindow w).length = min c.weight.length c.bias.length := by
  simp [CNNLayer.applyWindow, List.length_zipWith]

/-- The dimensions of a convolution layer: input width `din`, `dout` output
channels. -/
def CNNLayer.Wf (c : CNNLayer) (din dout : ℕ) : Prop :=
  c.inDim = din ∧ c.weight.length = dout ∧ c.bias.length = dout

theorem CNNLayer.padded_length (c : CNNLayer) (x : Mat) :
    (c.padded x).length = x.length + 2 * c.padding := by
  simp [CNNLayer.padded]
  omega

theorem CNNLayer.apply_some_length {c : CNNLayer} {x y : Mat}
    (hwin : 1 ≤ c.window) (h : c.apply x = some y) :
    y.length = x.length + 2 * c.padding + 1 - c.window := by
  unfold CNNLayer.apply at h
  split at h
  · rename_i hcond
    cases h
    rw [List.length_map, slide_length hwin hcond.2, CNNLayer.padded_length]
  · cases h

theorem CNNLayer.apply_mem_length {c : CNNLayer} {x y : Mat}
    (h : c.apply x = some y) {r : Vec} (hr : r ∈ y) :
    r.length = min c.weight.length c.bias.length := by
  unfold CNNLayer.apply at h
  split at h
  · cases h
    obtain ⟨w, -, he⟩ := List.mem_map.1 hr
    rw [← he, applyWindow_length]
  · cases h

theorem CNNLayer.apply_isSome {c : CNNLayer} {x : Mat}
    (hrows : ∀ r ∈ x, r.length = c.inDim)
    (hlen : c.window ≤ x.length + 2 * c.padding) :
    ∃ y, c.apply x = some y := by
  unfold CNNLayer.apply
  rw [if_pos]
  · exact ⟨_, rfl⟩
  · constructor
    · exact List.all_eq_true.2 (fun r hr => decide_eq_true (hrows r hr))
    · rw [CNNLayer.padded_length]
      omega

theorem CNNLayer.apply_none_of_short {c : CNNLayer} {x : Mat}
    (h : x.length + 2 * c.padding < c.window) : c.apply x = none := by
  unfold CNNLayer.apply
  rw [if_neg]
  intro hcond
  have := hcond.2
  rw [CNNLayer.padded_length] at this
  omega

theorem torchIndex_nonneg {α : Type} {l : List α} {i : ℤ} (h : 0 ≤ i) :
    torchIndex l i = l[i.toNat]? := by
  unfold torchIndex
  rw [if_pos h]

theorem torchIndex_neg {α : Type} {l : List α} {i : ℤ} (hneg : i < 0)
    (hge : -(l.length : ℤ) ≤ i) :
    torchIndex l i = l[(i + l.length).toNat]? := by
  unfold torchIndex
  rw [if_neg (by omega), if_pos hge]

end TextClf

namespace TextClf

theorem seqOpt_isSome {α : Type} {l : List (Option α)} (h : ∀ o ∈ l, o.isSome) :
    (seqOpt l).isSome := by
  induction l with
  | nil => rfl
  | cons o rest ih =>
    obtain ⟨a, ha⟩ := Option.isSome_iff_exists.1 (h o (List.mem_cons_self _ _))
    obtain ⟨r, hr⟩ := Option.isSome_iff_exists.1
      (ih (fun u hu => h u (List.mem_cons_of_mem _ hu)))
    simp [seqOpt, ha, hr]

theorem getElem?_zipWith {α β γ : Type} {f : α → β → γ} {a : List α}
    {b : List β} {i : ℕ} {x : α} {y : β} (hx : a[i]? = some x)
    (hy : b[i]? = some y) : (List.zipWith f a b)[i]? = some (f x y) := by
  induction a generalizing b i with
  | nil => simp at hx
  | cons u us ih =>
    cases b with
    | nil => simp at hy
    | cons v vs =>
      cases i with
      | zero =>
        simp at hx hy
        simp [hx, hy]
      | succ j =>
        simp at hx hy ⊢
        exact ih hx hy

theorem reluMat_length (m : Mat) : (reluMat m).length = m.length := by
  simp [reluMat]

theorem reluMat_mem_length {m : Mat} {d : ℕ} (h : ∀ r ∈ m, r.length = d)
    {r : Vec} (hr : r ∈ reluMat m) : r.length = d := by
  obtain ⟨s, hs, he⟩ := List.mem_map.1 hr
  rw [← he, List.length_map]
  exact h s hs

theorem Linear.apply_length_out {l : Linear} {v w : Vec}
    (h : l.apply v = some w) : w.length = min l.weight.length l.bias.length := by
  unfold Linear.apply at h
  split at h
  · cases h
    simp [List.length_zipWith]
  · cases h

/-- C5: `cal_seq_len` returns exactly `max_len` minus the number of
padding-id positions, and on a genuine row (whose stored width is the padded
length) the result lies between `0` and `max_seq_len`. -/
theorem c5_cal_seq_len_bounds (row : List ℕ) (max_seq_len padding_id : ℕ)
    (h : row.length = max_seq_len) :
    cal_seq_len row max_seq_len padding_id =
      (max_seq_len : ℤ) - row.count padding_id ∧
    0 ≤ cal_seq_len row max_seq_len padding_id ∧
    cal_seq_len row max_seq_len padding_id ≤ (max_seq_len : ℤ) := by
  have hcount : row.count padding_id ≤ row.length := List.count_le_length _ _
  refine ⟨rfl, ?_, ?_⟩ <;> unfold cal_seq_len <;> omega

/-- C5 witness: a concrete padded row. -/
theorem c5_cal_seq_len_bounds_witness :
    cal_seq_len [5, 6, 0, 0] 4 0 = (4 : ℤ) - [5, 6, 0, 0].count 0 ∧
    0 ≤ cal_seq_len [5, 6, 0, 0] 4 0 ∧
    cal_seq_len [5, 6, 0, 0] 4 0 ≤ (4 : ℤ) :=
  c5_cal_seq_len_bounds [5, 6, 0, 0] 4 0 rfl

/-- C9: each forward pass is a pure function of the model's parameters and
the input batch: the model coming out of a call is the model that went in,
a call made after any other call returns what a fresh call returns, and the
scores of a call are determined by `(model, batch)` alone. -/
theorem c9_forward_pure (m : Model) (x y : List (List ℕ)) :
    (m.forwardSt x).2 = m ∧
    ((m.forwardSt y).2).forward x = m.forward x ∧
    (m.forwardSt x).1 = m.forward x :=
  ⟨rfl, rfl, rfl⟩

/-- The computation C8 says an empty pyramid stack must reduce to: embed,
region embedding, the two ReLU-convolutions, the residual sum with the
region embedding, then directly max-pool over positions and apply the linear
head, with no downsampling. -/
def dpcnnDirect (m : DPCNNModel) (row : List ℕ) : Option Vec := do
  let e ← embedRow m.embedding row
  let emb ← m.region_embedding.apply e
  let a ← m.conv1.apply (reluMat emb)
  let b ← m.conv2.apply (reluMat a)
  let p ← maxPool (addMat b emb)
  m.linear.apply p

/-- C8: with `n_block = 0` the block stack of `DPCNNModel` is empty and
`forward` coincides with the direct post-residual max-pool computation on
every batch. -/
theorem c8_dpcnn_no_blocks (m : DPCNNModel) (hnb : m.blocks = [])
    (x : List (List ℕ)) : m.forward x = seqOpt (x.map (dpcnnDirect m)) := by
  have key : ∀ row, m.forwardRow row = dpcnnDirect m row := by
    intro row
    unfold DPCNNModel.forwardRow dpcnnDirect
    rw [hnb]
    simp [runBlocks]
  unfold DPCNNModel.forward
  rw [List.map_congr_left (fun row _ => key row)]

end TextClf

namespace TextClf

theorem LSTMModel.gathered_spec {m : LSTMModel} {x : List (List ℕ)} {g : Mat}
    (h : m.gathered x = some g) :
    (∀ r ∈ x, r.length = x.head?.elim 0 List.length) ∧
    g.length = x.length ∧
    ∀ (i : ℕ) (xi : List ℕ), x[i]? = some xi →
      ∃ emb, embedRow m.embedding xi = some emb ∧
        g[i]? = torchIndex (m.lstm.run emb)
          (cal_seq_len xi (x.head?.elim 0 List.length) m.padding_id - 1) := by
  unfold LSTMModel.gathered at h
  split at h
  · rename_i hall
    obtain ⟨embs, hembs, hzip⟩ := Option.bind_eq_some.1 h
    have hrect : ∀ r ∈ x, r.length = x.head?.elim 0 List.length :=
      fun r hr => of_decide_eq_true (List.all_eq_true.1 hall r hr)
    have hel : embs.length = x.length := by
      have := seqOpt_length hembs
      simpa using this
    refine ⟨hrect, ?_, ?_⟩
    · have hglen := seqOpt_length hzip
      rw [hglen, List.length_zipWith, List.length_map, List.length_map, hel]
      simp
    · intro i xi hxi
      have hmapi : (x.map (embedRow m.embedding))[i]? =
          some (embedRow m.embedding xi) := by
        rw [List.getElem?_map, hxi]
        rfl
      have hseq := seqOpt_getElem hembs i
      rw [hmapi] at hseq
      cases hei : embs[i]? with
      | none => rw [hei] at hseq; simp at hseq
      | some embi =>
        rw [hei] at hseq
        simp at hseq
        refine ⟨embi, hseq, ?_⟩
        have hhsi : (embs.map m.lstm.run)[i]? = some (m.lstm.run embi) := by
          rw [List.getElem?_map, hei]
          rfl
        have hlensi : (x.map (fun r =>
            cal_seq_len r (x.head?.elim 0 List.length) m.padding_id))[i]? =
            some (cal_seq_len xi (x.head?.elim 0 List.length) m.padding_id) := by
          rw [List.getElem?_map, hxi]
          rfl
        have hz : (List.zipWith (fun h l => torchIndex h (l - 1))
            (embs.map m.lstm.run) (x.map (fun r =>
              cal_seq_len r (x.head?.elim 0 List.length) m.padding_id)))[i]? =
            some (torchIndex (m.lstm.run embi)
              (cal_seq_len xi (x.head?.elim 0 List.length) m.padding_id - 1)) :=
          getElem?_zipWith hhsi hlensi
        have hgi := seqOpt_getElem hzip i
        rw [hz] at hgi
        cases hgival : g[i]? with
        | none => rw [hgival] at hgi; simp at hgi
        | some w =>
          rw [hgival] at hgi
          simp at hgi
          exact hgi.symm
  · exact Option.noConfusion h

theorem LSTMModel.forward_spec {m : LSTMModel} {x : List (List ℕ)} {out : Mat}
    (h : m.forward x = some out) :
    ∃ g, m.gathered x = some g ∧ seqOpt (g.map m.linear.apply) = some out := by
  unfold LSTMModel.forward at h
  cases hg : m.gathered x with
  | none => rw [hg] at h; cases h
  | some g => rw [hg] at h; exact ⟨g, rfl, h⟩

/-- C2: whenever `LSTMModel.forward` returns scores, each output row `i` is
the linear head applied to the hidden state that the recurrent encoder — run
over the full padded row — produced at position `length_i - 1`, the last
non-padding position, where `length_i` is the row's `cal_seq_len` value. -/
theorem c2_lstm_selects_last_nonpadding (m : LSTMModel) (x : List (List ℕ))
    (out : Mat) (hfwd : m.forward x = some out) (i : ℕ) (xi : List ℕ)
    (hxi : x[i]? = some xi)
    (hpos : 0 < cal_seq_len xi xi.length m.padding_id) :
    ∃ emb, embedRow m.embedding xi = some emb ∧
    ∃ v, (m.lstm.run emb)[(cal_seq_len xi xi.length m.padding_id - 1).toNat]? =
        some v ∧ out[i]? = m.linear.apply v := by
  obtain ⟨g, hg, hseq⟩ := LSTMModel.forward_spec hfwd
  obtain ⟨hrect, hglen, hper⟩ := LSTMModel.gathered_spec hg
  obtain ⟨emb, hemb, hgi⟩ := hper i xi hxi
  have hxilen : xi.length = x.head?.elim 0 List.length :=
    hrect xi (List.getElem?_mem hxi)
  rw [← hxilen] at hgi
  have hilt : i < x.length := (List.getElem?_eq_some.1 hxi).1
  have higlt : i < g.length := by rw [hglen]; exact hilt
  obtain ⟨v, hv⟩ : ∃ v, g[i]? = some v :=
    ⟨g[i], List.getElem?_eq_getElem higlt⟩
  have htorch : torchIndex (m.lstm.run emb)
      (cal_seq_len xi xi.length m.padding_id - 1) = some v := by
    rw [← hgi, hv]
  rw [torchIndex_nonneg (by omega)] at htorch
  refine ⟨emb, hemb, v, htorch, ?_⟩
  have hmapi : (g.map m.linear.apply)[i]? = some (m.linear.apply v) := by
    rw [List.getElem?_map, hv]
    rfl
  have houti := seqOpt_getElem hseq i
  rw [hmapi] at houti
  cases hov : out[i]? with
  | none => rw [hov] at houti; cases houti
  | some w =>
    rw [hov] at houti
    injection houti with hs
    exact hs.symm

end TextClf

namespace TextClf

theorem LSTMModel.gathered_single {m : LSTMModel} {row : List ℕ} {emb : Mat}
    (hemb : embedRow m.embedding row = some emb) {v : Vec}
    (hv : torchIndex (m.lstm.run emb)
      (cal_seq_len row row.length m.padding_id - 1) = some v) :
    m.gathered [row] = some [v] := by
  unfold LSTMModel.gathered
  rw [if_pos (by simp)]
  simp [seqOpt, hemb, hv]

theorem LSTMModel.forward_single {m : LSTMModel} {row : List ℕ} {v w : Vec}
    (hg : m.gathered [row] = some [v]) (hw : m.linear.apply v = some w) :
    m.forward [row] = some [w] := by
  unfold LSTMModel.forward
  rw [hg]
  simp [seqOpt, hw]

/-- C6 (amended): when an example consists entirely of padding, the computed
length is `0` and the gather index `length - 1 = -1` is, under the tensor
library's negative-index semantics, a valid index that wraps around to the
last (padded) position; the forward call therefore succeeds silently —
returning the head applied to the hidden state of the last padded position —
instead of surfacing a failure. -/
theorem c6_all_padding_wraps_to_last (m : LSTMModel) (L d : ℕ) (hL : 0 < L)
    (hpid : m.padding_id < m.embedding.length)
    (hcells : m.lstm.cells ≠ []) (hdim : ∀ c ∈ m.lstm.cells, c.DimOk d)
    (hlin : m.linear.inDim = d) :
    cal_seq_len (List.replicate L m.padding_id) L m.padding_id = 0 ∧
    ∃ emb v w, embedRow m.embedding (List.replicate L m.padding_id) = some emb ∧
      (m.lstm.run emb)[L - 1]? = some v ∧
      m.linear.apply v = some w ∧
      m.forward [List.replicate L m.padding_id] = some [w] := by
  have hcal : cal_seq_len (List.replicate L m.padding_id) L m.padding_id = 0 := by
    simp [cal_seq_len, List.count_replicate_self]
  have hexe : ∃ e, embedRow m.embedding (List.replicate L m.padding_id) = some e ∧
      e.length = (List.replicate L m.padding_id).length ∧
      ∀ r ∈ e, r ∈ m.embedding :=
    embedRow_isSome (fun t ht => by rw [List.eq_of_mem_replicate ht]; exact hpid)
  obtain ⟨emb, hemb, hlen, -⟩ := hexe
  have hrunlen : (m.lstm.run emb).length = L := by
    rw [lstm_run_length, hlen, List.length_replicate]
  have hlt : L - 1 < (m.lstm.run emb).length := by omega
  obtain ⟨v, hv⟩ : ∃ v, (m.lstm.run emb)[L - 1]? = some v :=
    ⟨_, List.getElem?_eq_getElem hlt⟩
  have hvd : v.length = d :=
    lstm_run_mem_length hcells hdim (List.getElem?_mem hv)
  obtain ⟨w, hw⟩ : ∃ w, m.linear.apply v = some w := by
    unfold Linear.apply
    rw [if_pos (by rw [hvd, hlin])]
    exact ⟨_, rfl⟩
  have htorch : torchIndex (m.lstm.run emb)
      (cal_seq_len (List.replicate L m.padding_id)
        (List.replicate L m.padding_id).length m.padding_id - 1) = some v := by
    rw [List.length_replicate, hcal]
    rw [torchIndex_neg (by omega) (by rw [hrunlen]; omega)]
    have hidx : ((0 : ℤ) - 1 + (m.lstm.run emb).length).toNat = L - 1 := by
      rw [hrunlen]; omega
    rw [hidx]
    exact hv
  exact ⟨hcal, emb, v, w, hemb, hv, hw,
    LSTMModel.forward_single (LSTMModel.gathered_single hemb htorch) hw⟩

/-- A one-feature concrete LSTM model for evaluating the embedding: vocabulary
of two tokens with padding id `0`, one recurrent cell summing state and input,
and an identity-like linear head. -/
def lstmCM : LSTMModel :=
  ⟨[[0], [1]], ⟨[⟨fun h x => [h.headD 0 + x.headD 0], [0]⟩]⟩, ⟨[[1]], [0], 1⟩, 0⟩

/-- C6 counterexample: on a concrete all-padding example the forward call
succeeds — the invalid-looking gather index `-1` wraps around to the last
padded position and no failure surfaces to the caller. -/
theorem c6_counterexample :
    cal_seq_len [0, 0, 0] 3 0 = 0 ∧ lstmCM.forward [[0, 0, 0]] = some [[0]] := by
  constructor
  · decide
  · decide

/-- C6 witness for the amended theorem: the concrete model of
`c6_counterexample` instantiates every hypothesis of the amended claim. -/
theorem c6_all_padding_wraps_to_last_witness :
    cal_seq_len (List.replicate 3 lstmCM.padding_id) 3 lstmCM.padding_id = 0 ∧
    ∃ emb v w, embedRow lstmCM.embedding (List.replicate 3 lstmCM.padding_id) =
        some emb ∧
      (lstmCM.lstm.run emb)[3 - 1]? = some v ∧
      lstmCM.linear.apply v = some w ∧
      lstmCM.forward [List.replicate 3 lstmCM.padding_id] = some [w] :=
  c6_all_padding_wraps_to_last lstmCM 3 1 (by decide) (by decide)
    (List.cons_ne_nil _ _)
    (by intro c hc h x; cases hc with
      | head => rfl
      | tail _ hmem => cases hmem)
    rfl

/-- C3: extending a sequence with any number of trailing padding-id tokens
does not change the pre-projection vector `LSTMModel` gathers at position
`length - 1`: for any two padded extensions the gathered vectors coincide,
and both equal the final encoder state obtained by feeding only the first
`length` tokens, with no padding, through the same encoder. -/
theorem c3_lstm_padding_invariant (m : LSTMModel) (s : List ℕ) (k k' : ℕ)
    (htok : ∀ t ∈ s, t < m.embedding.length)
    (hpid : m.padding_id < m.embedding.length)
    (hpos : 0 < cal_seq_len s s.length m.padding_id) :
    ∃ e v, embedRow m.embedding
        (s.take (cal_seq_len s s.length m.padding_id).toNat) = some e ∧
      (m.lstm.run e).getLast? = some v ∧
      m.gathered [s ++ List.replicate k m.padding_id] = some [v] ∧
      m.gathered [s ++ List.replicate k' m.padding_id] = some [v] := by
  have hlz : cal_seq_len s s.length m.padding_id =
      (s.length : ℤ) - s.count m.padding_id := rfl
  have hcount : s.count m.padding_id ≤ s.length := List.count_le_length _ _
  have hlenpos : 1 ≤ (cal_seq_len s s.length m.padding_id).toNat := by omega
  have hlenle : (cal_seq_len s s.length m.padding_id).toNat ≤ s.length := by
    omega
  obtain ⟨e, he, helen, -⟩ :
      ∃ e, embedRow m.embedding
          (s.take (cal_seq_len s s.length m.padding_id).toNat) = some e ∧
        e.length = (s.take (cal_seq_len s s.length m.padding_id).toNat).length ∧
        ∀ r ∈ e, r ∈ m.embedding :=
    embedRow_isSome (fun t ht => htok t (List.take_subset _ _ ht))
  have helen2 : e.length = (cal_seq_len s s.length m.padding_id).toNat := by
    rw [helen, List.length_take]
    omega
  have hrunlen : (m.lstm.run e).length =
      (cal_seq_len s s.length m.padding_id).toNat := by
    rw [lstm_run_length, helen2]
  obtain ⟨v, hv⟩ : ∃ v,
      (m.lstm.run e)[(cal_seq_len s s.length m.padding_id).toNat - 1]? =
        some v :=
    ⟨_, List.getElem?_eq_getElem (by omega)⟩
  have hlast : (m.lstm.run e).getLast? = some v := by
    rw [List.getLast?_eq_getElem?, hrunlen]
    exact hv
  have key : ∀ n : ℕ,
      m.gathered [s ++ List.replicate n m.padding_id] = some [v] := by
    intro n
    obtain ⟨f, hf, hflen, -⟩ :
        ∃ f, embedRow m.embedding (s ++ List.replicate n m.padding_id) =
            some f ∧
          f.length = (s ++ List.replicate n m.padding_id).length ∧
          ∀ r ∈ f, r ∈ m.embedding :=
      embedRow_isSome (fun t ht => by
        rcases List.mem_append.1 ht with h1 | h2
        · exact htok t h1
        · rw [List.eq_of_mem_replicate h2]; exact hpid)
    have hcal : cal_seq_len (s ++ List.replicate n m.padding_id)
        (s ++ List.replicate n m.padding_id).length m.padding_id =
        cal_seq_len s s.length m.padding_id := by
      simp [cal_seq_len, List.count_append, List.count_replicate_self]
    have hftake : f.take (cal_seq_len s s.length m.padding_id).toNat = e := by
      have h1 := embedRow_take hf (cal_seq_len s s.length m.padding_id).toNat
      rw [List.take_append_of_le_length hlenle] at h1
      have h2 := he.symm.trans h1
      injection h2 with h3
      exact h3.symm
    have hidx : (m.lstm.run f)[(cal_seq_len s s.length m.padding_id).toNat - 1]? =
        some v := by
      have h2 : (m.lstm.run f).take (cal_seq_len s s.length m.padding_id).toNat =
          m.lstm.run e := by
        rw [← run_take, hftake]
      have h3 : ((m.lstm.run f).take
            (cal_seq_len s s.length m.padding_id).toNat)[
            (cal_seq_len s s.length m.padding_id).toNat - 1]? =
          (m.lstm.run f)[(cal_seq_len s s.length m.padding_id).toNat - 1]? := by
        rw [List.getElem?_take, if_pos (by omega)]
      rw [← h3, h2]
      exact hv
    have htorch : torchIndex (m.lstm.run f)
        (cal_seq_len (s ++ List.replicate n m.padding_id)
          (s ++ List.replicate n m.padding_id).length m.padding_id - 1) =
        some v := by
      rw [hcal, torchIndex_nonneg (by omega)]
      have hnat : (cal_seq_len s s.length m.padding_id - 1).toNat =
          (cal_seq_len s s.length m.padding_id).toNat - 1 := by omega
      rw [hnat]
      exact hidx
    exact LSTMModel.gathered_single hf htorch
  exact ⟨e, v, he, hlast, key k, key k'⟩

end TextClf

namespace TextClf

/-- C2 witness: a concrete one-feature LSTM model on the batch `[[1, 0]]`. -/
theorem c2_lstm_selects_last_nonpadding_witness :
    ∃ emb, embedRow lstmCM.embedding [1, 0] = some emb ∧
    ∃ v, (lstmCM.lstm.run emb)[(cal_seq_len [1, 0] [1, 0].length
        lstmCM.padding_id - 1).toNat]? = some v ∧
      ([[1]] : Mat)[0]? = lstmCM.linear.apply v :=
  c2_lstm_selects_last_nonpadding lstmCM [[1, 0]] [[1]] (by decide) 0 [1, 0]
    (by decide) (by decide)

/-- C3 witness: the sequence `[1]` padded with one and with two trailing
padding tokens. -/
theorem c3_lstm_padding_invariant_witness :
    ∃ e v, embedRow lstmCM.embedding
        ([1].take (cal_seq_len [1] [1].length lstmCM.padding_id).toNat) =
        some e ∧
      (lstmCM.lstm.run e).getLast? = some v ∧
      lstmCM.gathered [[1] ++ List.replicate 1 lstmCM.padding_id] = some [v] ∧
      lstmCM.gathered [[1] ++ List.replicate 2 lstmCM.padding_id] = some [v] :=
  c3_lstm_padding_invariant lstmCM [1] 1 2 (by decide) (by decide) (by decide)

/-- C4: with the window sizes its constructor fixes (2, 3, 4, all unpadded),
`TextCNNModel.forward` succeeds on every well-formed batch whose rows have
length exactly 4, and fails on every nonempty batch whose rows have length 3,
because the window-4 branch needs at least 4 input positions. -/
theorem c4_textcnn_boundary (m : TextCNNModel) (embedDim hiddenDim tagDim : ℕ)
    (hinit : m.Init)
    (hemb : ∀ r ∈ m.embedding, r.length = embedDim)
    (hc1 : m.conv1.Wf embedDim hiddenDim) (hc2 : m.conv2.Wf embedDim hiddenDim)
    (hc3 : m.conv3.Wf embedDim hiddenDim)
    (hlin : m.linear.Wf (hiddenDim * 3) tagDim)
    (x4 x3 : List (List ℕ))
    (h4len : ∀ r ∈ x4, r.length = 4)
    (h4tok : ∀ r ∈ x4, ∀ t ∈ r, t < m.embedding.length)
    (h3len : ∀ r ∈ x3, r.length = 3) (h3ne : x3 ≠ []) :
    (m.forward x4).isSome ∧ m.forward x3 = none := by
  obtain ⟨hw1, hp1, hw2, hp2, hw3, hp3⟩ := hinit
  constructor
  · have hrow : ∀ r ∈ x4, (m.forwardRow r).isSome := by
      intro r hr
      obtain ⟨e, he, helen, hemem⟩ := embedRow_isSome (h4tok r hr)
      have herows : ∀ u ∈ e, u.length = embedDim :=
        fun u hu => hemb u (hemem u hu)
      have he4 : e.length = 4 := by rw [helen, h4len r hr]
      obtain ⟨y1, hy1⟩ := CNNLayer.apply_isSome (x := e)
        (fun u hu => (herows u hu).trans hc1.1.symm)
        (by rw [hw1, hp1, he4]; omega)
      obtain ⟨y2, hy2⟩ := CNNLayer.apply_isSome (x := e)
        (fun u hu => (herows u hu).trans hc2.1.symm)
        (by rw [hw2, hp2, he4]; omega)
      obtain ⟨y3, hy3⟩ := CNNLayer.apply_isSome (x := e)
        (fun u hu => (herows u hu).trans hc3.1.symm)
        (by rw [hw3, hp3, he4])
      have hylen1 : y1.length = 3 := by
        rw [CNNLayer.apply_some_length (by omega) hy1, he4, hp1, hw1]
      have hylen2 : y2.length = 2 := by
        rw [CNNLayer.apply_some_length (by omega) hy2, he4, hp2, hw2]
      have hylen3 : y3.length = 1 := by
        rw [CNNLayer.apply_some_length (by omega) hy3, he4, hp3, hw3]
      obtain ⟨q1, hq1⟩ := maxPool_isSome (m := reluMat y1)
        (by rw [← List.length_pos, reluMat_length, hylen1]; omega)
      obtain ⟨q2, hq2⟩ := maxPool_isSome (m := reluMat y2)
        (by rw [← List.length_pos, reluMat_length, hylen2]; omega)
      obtain ⟨q3, hq3⟩ := maxPool_isSome (m := reluMat y3)
        (by rw [← List.length_pos, reluMat_length, hylen3]; omega)
      have hqlen1 : q1.length = hiddenDim :=
        maxPool_length (fun u hu => reluMat_mem_length (fun a ha => by
          rw [CNNLayer.apply_mem_length hy1 ha, hc1.2.1, hc1.2.2, min_self]) hu) hq1
      have hqlen2 : q2.length = hiddenDim :=
        maxPool_length (fun u hu => reluMat_mem_length (fun a ha => by
          rw [CNNLayer.apply_mem_length hy2 ha, hc2.2.1, hc2.2.2, min_self]) hu) hq2
      have hqlen3 : q3.length = hiddenDim :=
        maxPool_length (fun u hu => reluMat_mem_length (fun a ha => by
          rw [CNNLayer.apply_mem_length hy3 ha, hc3.2.1, hc3.2.2, min_self]) hu) hq3
      obtain ⟨w, hw, -⟩ := Linear.apply_defined hlin (v := q1 ++ (q2 ++ q3))
        (by rw [List.length_append, List.length_append, hqlen1, hqlen2, hqlen3]
            omega)
      simp [TextCNNModel.forwardRow, he, hy1, hy2, hy3, hq1, hq2, hq3, hw]
    have hmem : ∀ o ∈ x4.map m.forwardRow, o.isSome := by
      intro o ho
      obtain ⟨r, hr, he⟩ := List.mem_map.1 ho
      rw [← he]
      exact hrow r hr
    exact seqOpt_isSome hmem
  · have hrow : ∀ r ∈ x3, m.forwardRow r = none := by
      intro r hr
      cases he : embedRow m.embedding r with
      | none => simp [TextCNNModel.forwardRow, he]
      | some e =>
        have he3 : e.length = 3 := by rw [embedRow_length he, h3len r hr]
        have hc3none : m.conv3.apply e = none :=
          CNNLayer.apply_none_of_short (by rw [hw3, hp3, he3]; omega)
        cases hc1o : m.conv1.apply e <;> cases hc2o : m.conv2.apply e <;>
          simp [TextCNNModel.forwardRow, he, hc1o, hc2o, hc3none]
    cases x3 with
    | nil => exact absurd rfl h3ne
    | cons r0 rest =>
      unfold TextCNNModel.forward
      apply seqOpt_eq_none
      rw [List.map_cons, hrow r0 (List.mem_cons_self _ _)]
      exact List.mem_cons_self _ _

end TextClf

namespace TextClf

/-- A concrete one-channel TextCNN model: scalar embeddings, one output
channel per convolution branch, and a head reading the three pooled
features. -/
def textcnnCM : TextCNNModel :=
  ⟨[[0], [1]],
   ⟨2, 0, 1, [[1, 1]], [0]⟩,
   ⟨3, 0, 1, [[1, 1, 1]], [0]⟩,
   ⟨4, 0, 1, [[1, 1, 1, 1]], [0]⟩,
   ⟨[[1, 1, 1]], [0], 3⟩⟩

/-- C4 witness: a batch of one length-4 row succeeds and a batch of one
length-3 row fails on the concrete TextCNN model. -/
theorem c4_textcnn_boundary_witness :
    (textcnnCM.forward [[1, 0, 1, 0]]).isSome ∧
    textcnnCM.forward [[1, 0, 1]] = none :=
  c4_textcnn_boundary textcnnCM 1 1 1 ⟨rfl, rfl, rfl, rfl, rfl, rfl⟩
    (by decide) ⟨rfl, rfl, rfl⟩ ⟨rfl, rfl, rfl⟩ ⟨rfl, rfl, rfl⟩
    ⟨rfl, rfl, rfl, by decide⟩ [[1, 0, 1, 0]] [[1, 0, 1]]
    (by decide) (by decide) (by decide) (by decide)

theorem embedRow_mem_table {table : Mat} {row : List ℕ} {e : Mat}
    (h : embedRow table row = some e) {r : Vec} (hr : r ∈ e) : r ∈ table := by
  have := seqOpt_mem h hr
  obtain ⟨t, -, ht⟩ := List.mem_map.1 this
  exact List.getElem?_mem ht

theorem seqOpt_map_shape {rowFn : List ℕ → Option Vec} {lin : Linear}
    (hlast : ∀ row w, rowFn row = some w → ∃ v, lin.apply v = some w)
    {x : List (List ℕ)} {out : Mat}
    (h : seqOpt (x.map rowFn) = some out) :
    out.length = x.length ∧ ∀ r ∈ out, ∃ v, lin.apply v = some r := by
  constructor
  · rw [seqOpt_length h, List.length_map]
  · intro r hr
    obtain ⟨row, -, he⟩ := List.mem_map.1 (seqOpt_mem h hr)
    exact hlast row r he

theorem rcnn_row_last (m : RCNNModel) :
    ∀ row w, m.forwardRow row = some w → ∃ v, m.linear.apply v = some w := by
  intro row w h
  simp only [RCNNModel.forwardRow, Option.bind_eq_bind, Option.bind_eq_some] at h
  obtain ⟨word, -, feat, -, pooled, -, hw⟩ := h
  exact ⟨pooled, hw⟩

theorem bilstmAttn_row_last (m : BiLSTMAttnModel) :
    ∀ row w, m.forwardRow row = some w → ∃ v, m.linear.apply v = some w := by
  intro row w h
  simp only [BiLSTMAttnModel.forwardRow, Option.bind_eq_bind, Option.bind_eq_some] at h
  obtain ⟨e, -, a, -, hw⟩ := h
  exact ⟨a, hw⟩

theorem cnn_row_last (m : CNNModel) :
    ∀ row w, m.forwardRow row = some w → ∃ v, m.linear.apply v = some w := by
  intro row w h
  simp only [CNNModel.forwardRow, Option.bind_eq_bind, Option.bind_eq_some] at h
  obtain ⟨e, -, c, -, p, -, hw⟩ := h
  exact ⟨p.map relu, hw⟩

theorem textcnn_row_last (m : TextCNNModel) :
    ∀ row w, m.forwardRow row = some w → ∃ v, m.linear.apply v = some w := by
  intro row w h
  simp only [TextCNNModel.forwardRow, Option.bind_eq_bind, Option.bind_eq_some] at h
  obtain ⟨e, -, f1, -, f2, -, f3, -, p1, -, p2, -, p3, -, hw⟩ := h
  exact ⟨p1 ++ p2 ++ p3, hw⟩

theorem dpcnn_row_last (m : DPCNNModel) :
    ∀ row w, m.forwardRow row = some w → ∃ v, m.linear.apply v = some w := by
  intro row w h
  simp only [DPCNNModel.forwardRow, Option.bind_eq_bind, Option.bind_eq_some] at h
  obtain ⟨e, -, emb, -, a, -, b, -, t, -, p, -, hw⟩ := h
  exact ⟨p, hw⟩

theorem cnnAttn_row_last (m : CNNAttnModel) :
    ∀ row w, m.forwardRow row = some w → ∃ v, m.linear.apply v = some w := by
  intro row w h
  simp only [CNNAttnModel.forwardRow, Option.bind_eq_bind, Option.bind_eq_some] at h
  obtain ⟨e, -, c, -, a, -, hw⟩ := h
  exact ⟨a, hw⟩

theorem LSTMModel.forward_shape (m : LSTMModel) {x : List (List ℕ)} {out : Mat}
    (h : m.forward x = some out) :
    out.length = x.length ∧ ∀ r ∈ out, ∃ v, m.linear.apply v = some r := by
  obtain ⟨g, hg, hseq⟩ := LSTMModel.forward_spec h
  obtain ⟨-, hglen, -⟩ := LSTMModel.gathered_spec hg
  constructor
  · rw [seqOpt_length hseq, List.length_map, hglen]
  · intro r hr
    obtain ⟨v, -, he⟩ := List.mem_map.1 (seqOpt_mem hseq hr)
    exact ⟨v, he⟩

/-- C1: for every model of the family, whenever `forward` returns, the result
has one row per batch example and every row has exactly `tag_dim` entries —
whatever the padded sequence length of the batch was. -/
theorem c1_output_shape (M : Model) (tagDim : ℕ) (hwf : M.Wf tagDim)
    (x : List (List ℕ)) (out : Mat) (h : M.forward x = some out) :
    out.length = x.length ∧ ∀ r ∈ out, r.length = tagDim := by
  have hout : out.length = x.length ∧
      ∀ r ∈ out, ∃ v, M.head.apply v = some r := by
    cases M with
    | lstm m => exact LSTMModel.forward_shape m h
    | rcnn m => exact seqOpt_map_shape (rcnn_row_last m) h
    | bilstmAttn m => exact seqOpt_map_shape (bilstmAttn_row_last m) h
    | cnn m => exact seqOpt_map_shape (cnn_row_last m) h
    | textcnn m => exact seqOpt_map_shape (textcnn_row_last m) h
    | dpcnn m => exact seqOpt_map_shape (dpcnn_row_last m) h
    | cnnAttn m => exact seqOpt_map_shape (cnnAttn_row_last m) h
  refine ⟨hout.1, fun r hr => ?_⟩
  obtain ⟨v, hv⟩ := hout.2 r hr
  rw [Linear.apply_length_out hv, hwf.1, hwf.2, min_self]

/-- C1 witness: the concrete LSTM model on a batch of one row of length 2
yields one row of length 1. -/
theorem c1_output_shape_witness :
    ([[1]] : Mat).length = [[1, 0]].length ∧
    ∀ r ∈ ([[1]] : Mat), r.length = 1 :=
  c1_output_shape (Model.lstm lstmCM) 1 ⟨rfl, rfl⟩ [[1, 0]] [[1]] (by decide)

end TextClf

namespace TextClf

/-- The dimensions `RCNNModel.__init__` fixes: per-direction recurrent width
`embed_dim / 2`, an encoder expecting `2 * embed_dim` inputs and producing
`hidden_dim`, and a head from `hidden_dim` to `tag_dim`. -/
def RCNNModel.Wf (m : RCNNModel) (embedDim hiddenDim tagDim : ℕ) : Prop :=
  (∀ r ∈ m.embedding, r.length = embedDim) ∧
  m.bilstm.fwd.DimOk (embedDim / 2) ∧
  m.bilstm.bwd.DimOk (embedDim / 2) ∧
  m.encoder.Wf (2 * embedDim) hiddenDim ∧
  m.linear.Wf hiddenDim tagDim

theorem RCNNModel.forwardRow_none_of_odd {m : RCNNModel}
    {embedDim hiddenDim tagDim : ℕ} (hwf : m.Wf embedDim hiddenDim tagDim)
    (hodd : embedDim % 2 = 1) (row : List ℕ) : m.forwardRow row = none := by
  cases he : embedRow m.embedding row with
  | none => simp [RCNNModel.forwardRow, he]
  | some word =>
    cases word with
    | nil =>
      simp [RCNNModel.forwardRow, he, BiLSTM.run, RNNCell.scan,
        RNNCell.scanFrom, seqOpt, maxPool]
    | cons w0 ws =>
      have hw0 : w0.length = embedDim :=
        hwf.1 w0 (embedRow_mem_table he (List.mem_cons_self _ _))
      have hlen0 : 0 < (m.bilstm.run (w0 :: ws)).length := by
        rw [BiLSTM.run_length]
        simp
      obtain ⟨c0, hc0⟩ : ∃ c0, (m.bilstm.run (w0 :: ws))[0]? = some c0 :=
        ⟨_, List.getElem?_eq_getElem hlen0⟩
      have hc0len : c0.length = embedDim / 2 + embedDim / 2 :=
        BiLSTM.run_mem_length hwf.2.1 hwf.2.2.1 (List.getElem?_mem hc0)
      have hcat0 : (List.zipWith (fun u v => u ++ v) (w0 :: ws)
          (m.bilstm.run (w0 :: ws)))[0]? = some (w0 ++ c0) :=
        getElem?_zipWith (by simp) hc0
      have henc : m.encoder.apply (w0 ++ c0) = none := by
        apply Linear.apply_of_wrong_width
        rw [List.length_append, hw0, hc0len, hwf.2.2.2.1.1]
        omega
      have hmapnone : ((List.zipWith (fun u v => u ++ v) (w0 :: ws)
          (m.bilstm.run (w0 :: ws))).map
            (fun v => (m.encoder.apply v).map (List.map m.act)))[0]? =
          some none := by
        rw [List.getElem?_map, hcat0]
        simp [henc]
      have hseqnone : seqOpt ((List.zipWith (fun u v => u ++ v) (w0 :: ws)
          (m.bilstm.run (w0 :: ws))).map
            (fun v => (m.encoder.apply v).map (List.map m.act))) = none :=
        seqOpt_eq_none (List.getElem?_mem hmapnone)
      simp [RCNNModel.forwardRow, he, hseqnone]

theorem RCNNModel.forwardRow_isSome_of_even {m : RCNNModel}
    {embedDim hiddenDim tagDim : ℕ} (hwf : m.Wf embedDim hiddenDim tagDim)
    (heven : embedDim % 2 = 0) {row : List ℕ} (hne : row ≠ [])
    (htok : ∀ t ∈ row, t < m.embedding.length) :
    (m.forwardRow row).isSome := by
  obtain ⟨word, hw, hwlen, hwmem⟩ :
      ∃ e, embedRow m.embedding row = some e ∧ e.length = row.length ∧
        ∀ r ∈ e, r ∈ m.embedding :=
    embedRow_isSome htok
  have hwrows : ∀ u ∈ word, u.length = embedDim :=
    fun u hu => hwf.1 u (hwmem u hu)
  have hcat : ∀ c ∈ List.zipWith (fun u v => u ++ v) word (m.bilstm.run word),
      c.length = 2 * embedDim := by
    intro c hc
    obtain ⟨u, v, hu, hv, hce⟩ := mem_zipWith hc
    subst hce
    rw [List.length_append, hwrows u hu,
      BiLSTM.run_mem_length hwf.2.1 hwf.2.2.1 hv]
    omega
  have hfe : ∀ o ∈ (List.zipWith (fun u v => u ++ v) word
      (m.bilstm.run word)).map
        (fun v => (m.encoder.apply v).map (List.map m.act)), o.isSome := by
    intro o ho
    obtain ⟨c, hc, hoe⟩ := List.mem_map.1 ho
    obtain ⟨u, hu, -⟩ := Linear.apply_defined hwf.2.2.2.1 (hcat c hc)
    rw [← hoe, hu]
    rfl
  obtain ⟨feat, hfeat⟩ := Option.isSome_iff_exists.1 (seqOpt_isSome hfe)
  have hfrows : ∀ b ∈ feat, b.length = hiddenDim := by
    intro b hb
    obtain ⟨c, -, hce⟩ := List.mem_map.1 (seqOpt_mem hfeat hb)
    cases hec : m.encoder.apply c with
    | none => rw [hec] at hce; cases hce
    | some u =>
      rw [hec] at hce
      simp at hce
      rw [← hce, List.length_map]
      exact Linear.apply_length hwf.2.2.2.1 hec
  have hfne : feat ≠ [] := by
    rw [← List.length_pos, seqOpt_length hfeat, List.length_map,
      List.length_zipWith, BiLSTM.run_length, hwlen, min_self,
      List.length_pos]
    exact hne
  obtain ⟨p, hp⟩ := maxPool_isSome hfne
  have hplen : p.length = hiddenDim := maxPool_length hfrows hp
  obtain ⟨w, hlinw, -⟩ := Linear.apply_defined hwf.2.2.2.2 hplen
  simp [RCNNModel.forwardRow, hw, hfeat, hp, hlinw]

/-- C10: `RCNNModel` concatenates `embed_dim`-wide embeddings with a
bidirectional context of width `2 * (embed_dim / 2)` while its encoder
expects `2 * embed_dim` inputs, so on well-formed nonempty input the forward
pass fails with a width mismatch whenever `embed_dim` is odd, and succeeds
whenever `embed_dim` is even. -/
theorem c10_rcnn_width_parity (m : RCNNModel) (embedDim hiddenDim tagDim : ℕ)
    (hwf : m.Wf embedDim hiddenDim tagDim) (x : List (List ℕ)) :
    (embedDim % 2 = 1 → x ≠ [] → m.forward x = none) ∧
    (embedDim % 2 = 0 →
      (∀ r ∈ x, r ≠ [] ∧ ∀ t ∈ r, t < m.embedding.length) →
      (m.forward x).isSome) := by
  constructor
  · intro hodd hne
    cases x with
    | nil => exact absurd rfl hne
    | cons r0 rest =>
      unfold RCNNModel.forward
      apply seqOpt_eq_none
      rw [List.map_cons, RCNNModel.forwardRow_none_of_odd hwf hodd r0]
      exact List.mem_cons_self _ _
  · intro heven hx
    apply seqOpt_isSome
    intro o ho
    obtain ⟨r, hr, hoe⟩ := List.mem_map.1 ho
    rw [← hoe]
    exact RCNNModel.forwardRow_isSome_of_even hwf heven (hx r hr).1 (hx r hr).2

end TextClf

namespace TextClf

/-- Column `j` of a `(positions, features)` matrix: one scalar per sequence
position. -/
def column (m : Mat) (j : ℕ) : List ℤ := m.map (fun r => r.getD j 0)

theorem le_foldl_max (a : ℤ) (l : List ℤ) : a ≤ l.foldl max a := by
  induction l generalizing a with
  | nil => exact le_refl a
  | cons b bs ih => exact le_trans (le_max_left a b) (ih (max a b))

theorem mem_le_foldl_max {q : ℤ} {l : List ℤ} (hq : q ∈ l) (a : ℤ) :
    q ≤ l.foldl max a := by
  induction l generalizing a with
  | nil => simp at hq
  | cons b bs ih =>
    rcases List.mem_cons.1 hq with h1 | h1
    · subst h1
      exact le_trans (le_max_right a q) (le_foldl_max _ _)
    · exact ih h1 _

theorem foldl_max_mem (a : ℤ) (l : List ℤ) : l.foldl max a ∈ a :: l := by
  induction l generalizing a with
  | nil => simp
  | cons b bs ih =>
    rcases List.mem_cons.1 (ih (max a b)) with h1 | h1
    · rw [List.foldl_cons, h1]
      rcases max_choice a b with h2 | h2 <;> rw [h2]
      · exact List.mem_cons_self _ _
      · exact List.mem_cons_of_mem _ (List.mem_cons_self _ _)
    · exact List.mem_cons_of_mem _ (List.mem_cons_of_mem _ h1)

theorem maxVec_getD {acc r : Vec} {d j : ℕ} (hj : j < d)
    (hacc : acc.length = d) (hr : r.length = d) :
    (maxVec acc r).getD j 0 = max (acc.getD j 0) (r.getD j 0) := by
  have hmv : (maxVec acc r).length = d := by
    simp [maxVec, List.length_zipWith, hacc, hr]
  rw [List.getD_eq_getElem _ _ (hmv ▸ hj), List.getD_eq_getElem _ _ (hacc ▸ hj),
    List.getD_eq_getElem _ _ (hr ▸ hj)]
  exact List.getElem_zipWith

theorem foldl_maxVec_getD {d j : ℕ} (hj : j < d) :
    ∀ (rest : Mat) (acc : Vec), acc.length = d → (∀ r ∈ rest, r.length = d) →
      (rest.foldl maxVec acc).getD j 0 =
        (column rest j).foldl max (acc.getD j 0)
  | [], acc, _, _ => by simp [column]
  | r :: rs, acc, hacc, hrest => by
    have hrd : r.length = d := hrest r (List.mem_cons_self _ _)
    have hmv : (maxVec acc r).length = d := by
      simp [maxVec, List.length_zipWith, hacc, hrd]
    simp only [List.foldl_cons, column, List.map_cons]
    rw [foldl_maxVec_getD hj rs (maxVec acc r) hmv
      (fun u hu => hrest u (List.mem_cons_of_mem _ hu)),
      maxVec_getD hj hacc hrd]
    rfl

/-- The pooled vector of `maxPool` holds, at each feature, the maximum of
that feature's column over every sequence position: it dominates every entry
of the column and is itself one of them. -/
theorem maxPool_col {d : ℕ} {m : Mat} {v : Vec} (hm : ∀ r ∈ m, r.length = d)
    (h : maxPool m = some v) {j : ℕ} (hj : j < d) :
    (∀ q ∈ column m j, q ≤ v.getD j 0) ∧ v.getD j 0 ∈ column m j := by
  cases m with
  | nil => cases h
  | cons r0 rest =>
    have hv : v = rest.foldl maxVec r0 := by
      unfold maxPool at h
      injection h with h2
      exact h2.symm
    subst hv
    have hkey : (rest.foldl maxVec r0).getD j 0 =
        (column rest j).foldl max (r0.getD j 0) :=
      foldl_maxVec_getD hj rest r0 (hm r0 (List.mem_cons_self _ _))
        (fun u hu => hm u (List.mem_cons_of_mem _ hu))
    have hcol : column (r0 :: rest) j = r0.getD j 0 :: column rest j := by
      simp [column]
    constructor
    · intro q hq
      rw [hcol] at hq
      rcases List.mem_cons.1 hq with h1 | h1
      · subst h1
        rw [hkey]
        exact le_foldl_max _ _
      · rw [hkey]
        exact mem_le_foldl_max h1 _
    · rw [hkey, hcol]
      exact foldl_max_mem _ _

end TextClf

namespace TextClf

/-- C7: whenever `RCNNModel.forward` succeeds, every example was processed by
concatenating its raw embeddings with the bidirectional recurrent context
along the feature axis — doubling the width to `2 * embed_dim` — applying the
`tanh`-activated linear encoder to reach `hidden_dim` features, max-pooling
over the sequence axis, and applying the linear head; the pooled value of
each feature is the maximum of that feature over all sequence positions, so
no length masking excludes padded positions from the max. -/
theorem c7_rcnn_structure (m : RCNNModel) (embedDim hiddenDim tagDim : ℕ)
    (hwf : m.Wf embedDim hiddenDim tagDim) (heven : embedDim % 2 = 0)
    (x : List (List ℕ)) (out : Mat) (h : m.forward x = some out)
    (i : ℕ) (xi : List ℕ) (hxi : x[i]? = some xi) :
    ∃ word, embedRow m.embedding xi = some word ∧
    ∃ feat, seqOpt ((List.zipWith (fun u v => u ++ v) word
        (m.bilstm.run word)).map
        (fun v => (m.encoder.apply v).map (List.map m.act))) = some feat ∧
      (∀ c ∈ List.zipWith (fun u v => u ++ v) word (m.bilstm.run word),
        c.length = 2 * embedDim) ∧
      (∀ r ∈ feat, r.length = hiddenDim) ∧
    ∃ pooled, maxPool feat = some pooled ∧
      (∀ j, j < hiddenDim →
        (∀ q ∈ column feat j, q ≤ pooled.getD j 0) ∧
        pooled.getD j 0 ∈ column feat j) ∧
      out[i]? = m.linear.apply pooled := by
  have hmapi : (x.map m.forwardRow)[i]? = some (m.forwardRow xi) := by
    rw [List.getElem?_map, hxi]
    rfl
  have hseq := seqOpt_getElem h i
  rw [hmapi] at hseq
  cases hov : out[i]? with
  | none => rw [hov] at hseq; simp at hseq
  | some wi =>
    rw [hov] at hseq
    simp at hseq
    simp only [RCNNModel.forwardRow, Option.bind_eq_bind,
      Option.bind_eq_some] at hseq
    obtain ⟨word, hword, feat, hfeat, pooled, hpool, hlin⟩ := hseq
    have hwrows : ∀ u ∈ word, u.length = embedDim :=
      fun u hu => hwf.1 u (embedRow_mem_table hword hu)
    have hcat : ∀ c ∈ List.zipWith (fun u v => u ++ v) word
        (m.bilstm.run word), c.length = 2 * embedDim := by
      intro c hc
      obtain ⟨u, v, hu, hv, hce⟩ := mem_zipWith hc
      subst hce
      rw [List.length_append, hwrows u hu,
        BiLSTM.run_mem_length hwf.2.1 hwf.2.2.1 hv]
      omega
    have hfrows : ∀ b ∈ feat, b.length = hiddenDim := by
      intro b hb
      obtain ⟨c, -, hce⟩ := List.mem_map.1 (seqOpt_mem hfeat hb)
      cases hec : m.encoder.apply c with
      | none => rw [hec] at hce; cases hce
      | some u =>
        rw [hec] at hce
        simp at hce
        rw [← hce, List.length_map]
        exact Linear.apply_length hwf.2.2.2.1 hec
    refine ⟨word, hword, feat, hfeat, hcat, hfrows, pooled, hpool, ?_, ?_⟩
    · intro j hj
      exact maxPool_col hfrows hpool hj
    · rw [hlin]

/-- A concrete even-width RCNN model: two-feature embeddings, one-feature
recurrent directions, an encoder from width 4 to one feature, identity
activation. -/
def rcnnEvenCM : RCNNModel :=
  ⟨[[0, 0], [1, 1]],
   ⟨⟨fun _ _ => [0], [0]⟩, ⟨fun _ _ => [0], [0]⟩⟩,
   ⟨[[1, 1, 1, 1]], [0], 4⟩, ⟨[[1]], [0], 1⟩, fun q => q⟩

/-- A concrete odd-width RCNN model: scalar embeddings, zero-width recurrent
directions, an encoder expecting width 2. -/
def rcnnOddCM : RCNNModel :=
  ⟨[[0], [1]],
   ⟨⟨fun _ _ => [], []⟩, ⟨fun _ _ => [], []⟩⟩,
   ⟨[[1, 1]], [0], 2⟩, ⟨[[1]], [0], 1⟩, fun q => q⟩

/-- C10 witness: the odd-width concrete model on a nonempty batch. -/
theorem c10_rcnn_width_parity_witness :
    ((1 : ℕ) % 2 = 1 → ([[1]] : List (List ℕ)) ≠ [] →
      rcnnOddCM.forward [[1]] = none) ∧
    ((1 : ℕ) % 2 = 0 →
      (∀ r ∈ ([[1]] : List (List ℕ)), r ≠ [] ∧
        ∀ t ∈ r, t < rcnnOddCM.embedding.length) →
      (rcnnOddCM.forward [[1]]).isSome) :=
  c10_rcnn_width_parity rcnnOddCM 1 1 1
    ⟨by decide, fun _ _ => rfl, fun _ _ => rfl,
     ⟨rfl, rfl, rfl, by decide⟩, ⟨rfl, rfl, rfl, by decide⟩⟩ [[1]]

/-- C7 witness: the even-width concrete model on the batch `[[1]]`. -/
theorem c7_rcnn_structure_witness :
    ∃ word, embedRow rcnnEvenCM.embedding [1] = some word ∧
    ∃ feat, seqOpt ((List.zipWith (fun u v => u ++ v) word
        (rcnnEvenCM.bilstm.run word)).map
        (fun v => (rcnnEvenCM.encoder.apply v).map
          (List.map rcnnEvenCM.act))) = some feat ∧
      (∀ c ∈ List.zipWith (fun u v => u ++ v) word
        (rcnnEvenCM.bilstm.run word), c.length = 2 * 2) ∧
      (∀ r ∈ feat, r.length = 1) ∧
    ∃ pooled, maxPool feat = some pooled ∧
      (∀ j, j < 1 →
        (∀ q ∈ column feat j, q ≤ pooled.getD j 0) ∧
        pooled.getD j 0 ∈ column feat j) ∧
      ([[2]] : Mat)[0]? = rcnnEvenCM.linear.apply pooled :=
  c7_rcnn_structure rcnnEvenCM 2 1 1
    ⟨by decide, fun _ _ => rfl, fun _ _ => rfl,
     ⟨rfl, rfl, rfl, by decide⟩, ⟨rfl, rfl, rfl, by decide⟩⟩ rfl
    [[1]] [[2]] (by decide) 0 [1] (by decide)

end TextClf

namespace TextClf

/-- A concrete DPCNN model with an empty pyramid block stack: scalar
embeddings and single-channel window-3, padding-1 convolutions. -/
def dpcnnCM : DPCNNModel :=
  ⟨[[0], [1]],
   ⟨3, 1, 1, [[1, 1, 1]], [0]⟩,
   ⟨3, 1, 1, [[1, 1, 1]], [0]⟩,
   ⟨3, 1, 1, [[1, 1, 1]], [0]⟩,
   [], ⟨[[1]], [0], 1⟩⟩

/-- C8 witness: the concrete zero-block DPCNN model on the batch `[[1, 0]]`. -/
theorem c8_dpcnn_no_blocks_witness :
    dpcnnCM.forward [[1, 0]] = seqOpt ([[1, 0]].map (dpcnnDirect dpcnnCM)) :=
  c8_dpcnn_no_blocks dpcnnCM rfl [[1, 0]]

end TextClf
